import Mathlib

/-!
Verification of the cmssw-xrootd-utils repository: a shallow embedding of
the two Python scripts `list_cmssw_releases.py` (the collector, whose core
logic is the version comparator `is_version_greater`) and
`find_unsupported_releases.py` (the analyzer: `get_sort_key` and
`analyze_releases`), together with theorems settling the specification
claims about them.

Conventions of the embedding:
- Python strings are Lean `String`; `str.split(sep)` with a one-character
  separator is `pySplit sep`, a structurally recursive splitter over the
  character list that keeps empty pieces, exactly like Python.
- Python ints arising here are natural numbers (all parsed from digit
  strings); `int(p)` is modelled for digit-string inputs, the only inputs
  the scripts feed it.
- Python tuple comparison is modelled by explicit Bool-valued lexicographic
  comparators (`natListLt`, `strLt`, `preLt`, `keyLt`).
- Python dicts are association lists; `dict.get(k, default)` on a possibly
  missing key is `Option.getD`.
- `list.sort` (stable, ascending by key) is `pySort`, a stable insertion
  sort with the reflexive comparator derived from the strict key order.
- File IO and `json.load` are abstracted into a `LoadResult` value; the
  diagnostic stream (stderr) is an explicit list of `Diagnostic` values.
-/

/-- Python `str.split(sep)` for a single-character separator: splits on
every occurrence of `sep`, keeping empty pieces; the empty string yields
one empty piece. -/
def splitOnChar (sep : Char) : List Char → List (List Char)
  | [] => [[]]
  | c :: cs =>
    if c = sep then [] :: splitOnChar sep cs
    else
      match splitOnChar sep cs with
      | [] => [[c]]
      | p :: ps => (c :: p) :: ps

/-- Split a string on a single-character separator, Python style. -/
def pySplit (sep : Char) (s : String) : List (List Char) :=
  splitOnChar sep s.toList

/-- Decimal value of a list of digit characters, most significant first.
Models Python `int(s)` for a digit string `s`; `digitsVal [] = 0` models
`int(m.group(2) or 0)` when the optional group is absent. -/
def digitsVal (cs : List Char) : Nat :=
  cs.foldl (fun a c => a * 10 + (c.toNat - 48)) 0

/-- Models Python `part.isdigit()` for ASCII strings: nonempty and all
characters are decimal digits. -/
def segIsDigit (cs : List Char) : Bool :=
  !cs.isEmpty && cs.all Char.isDigit

/-- Embedding of `get_sort_key` from `find_unsupported_releases.py`.
Splits the release name on underscores, drops the leading `CMSSW` token,
collects the integer values of the leading all-digit segments (the loop
breaks at the first non-digit segment), derives the pre-release marker from
that first non-digit segment via the regex `([a-zA-Z]+)(\d+)?` (defaulting
to `(zz, 0)` when there is no such segment or it does not start with a
letter), and pads the numeric parts with trailing zeros via
`num_parts.extend([0] * (4 - len(num_parts)))`. -/
def get_sort_key (release_name : String) : List Nat × String × Nat :=
  let parts := (pySplit (Char.ofNat 95) release_name).drop 1
  let numParts := (parts.takeWhile segIsDigit).map digitsVal
  let preParts :=
    match parts.dropWhile segIsDigit with
    | [] => ("zz", 0)
    | part :: _ =>
      let letters := part.takeWhile Char.isAlpha
      if letters.isEmpty then ("zz", 0)
      else
        let digits := (part.drop letters.length).takeWhile Char.isDigit
        (String.mk (letters.map Char.toLower), digitsVal digits)
  (numParts ++ List.replicate (4 - numParts.length) 0, preParts)

/-- Strict lexicographic order on lists of naturals, as Python compares
tuples of ints (a strict prefix is smaller). -/
def natListLt : List Nat → List Nat → Bool
  | _, [] => false
  | [], _ :: _ => true
  | x :: xs, y :: ys =>
    if x < y then true else if y < x then false else natListLt xs ys

/-- Strict lexicographic order on lists of characters by code point, as
Python compares strings. -/
def charListLt : List Char → List Char → Bool
  | _, [] => false
  | [], _ :: _ => true
  | c :: cs, d :: ds =>
    if c.toNat < d.toNat then true
    else if d.toNat < c.toNat then false
    else charListLt cs ds

/-- Python string `<` by code points. -/
def strLt (a b : String) : Bool := charListLt a.toList b.toList

/-- Python `<` on the pre-release marker pairs `(tag, number)`. -/
def preLt (a b : String × Nat) : Bool :=
  if strLt a.1 b.1 then true
  else if strLt b.1 a.1 then false
  else decide (a.2 < b.2)

/-- Python `<` on full sort keys `((num_parts...), (tag, number))`. -/
def keyLt (a b : List Nat × String × Nat) : Bool :=
  if natListLt a.1 b.1 then true
  else if natListLt b.1 a.1 then false
  else preLt a.2 b.2

/-- Models one Python list comprehension `[f(p) for p in parts]` whose body
may raise `ValueError` (modelled by `f` returning `none`): the whole
comprehension yields a value only when every element does. -/
def parseParts (f : List Char → Option Nat) : List (List Char) → Option (List Nat)
  | [] => some []
  | p :: rest =>
    match f p, parseParts f rest with
    | some n, some ns => some (n :: ns)
    | _, _ => none

/-- Models the candidate-component parse of `is_version_greater`, which
strips every non-digit character with re.sub before calling int: an empty
remainder raises `ValueError` (here `none`). -/
def cleanPart (p : List Char) : Option Nat :=
  let ds := p.filter Char.isDigit
  if ds.isEmpty then none else some (digitsVal ds)

/-- Models `int(p)` on a target-version component: the scripts only feed it
plain digit strings, so non-digit input is a `ValueError` (here `none`). -/
def intPart (p : List Char) : Option Nat :=
  if segIsDigit p then some (digitsVal p) else none

/-- The component-wise comparison loop of `is_version_greater`: first
strictly greater component decides true, first strictly smaller decides
false, exhaustion (all equal) gives false. -/
def cmpParts : List Nat → List Nat → Bool
  | v :: vs, t :: ts =>
    if t < v then true else if v < t then false else cmpParts vs ts
  | _, _ => false

/-- Embedding of `is_version_greater` from `list_cmssw_releases.py`: split
both strings on dots, clean each candidate component of non-digits, parse
the target components as ints, pad the shorter list with trailing zeros,
and compare component-wise; any component parse failure yields `none`. -/
def is_version_greater (version_str target_str : String) : Option Bool :=
  match parseParts cleanPart (pySplit (Char.ofNat 46) version_str),
        parseParts intPart (pySplit (Char.ofNat 46) target_str) with
  | some vParts, some tParts =>
    let maxLen := max vParts.length tParts.length
    let v := vParts ++ List.replicate (maxLen - vParts.length) 0
    let t := tParts ++ List.replicate (maxLen - tParts.length) 0
    some (cmpParts v t)
  | _, _ => none

/-- One architecture record of the persisted dataset: the fields the
collector writes. `isTokenReady` is an `Option Bool` so that a record
lacking the field can be represented; the analyzer reads it with
`v.get("isTokenReady", False)`, that is `Option.getD false`. -/
structure VersionRecord where
  xrootd_version : String
  isTokenReady : Option Bool
deriving DecidableEq

/-- One ReleaseEntry: architecture name to record, as an association list. -/
abbrev ArchMap := List (String × VersionRecord)

/-- The persisted ReleaseDataset: release name to ReleaseEntry. -/
abbrev Dataset := List (String × ArchMap)

/-- A sort key as produced by `get_sort_key`. -/
abbrev SortKey := List Nat × String × Nat

/-- Aggregation step of `analyze_releases`:
`all(v.get("isTokenReady", False) for v in arch_data.values())`. -/
def is_release_ready (arch_data : ArchMap) : Bool :=
  arch_data.all (fun v => (v.2.isTokenReady).getD false)

/-- Step 1 of `analyze_releases`: flatten the dataset to
`(release_name, is_release_ready, sort_key)` triples, skipping releases
whose architecture mapping is empty (`if not arch_data: continue`). -/
def flattenReleases (data : Dataset) : List (String × Bool × SortKey) :=
  data.filterMap (fun p =>
    if p.2.isEmpty then none
    else some (p.1, is_release_ready p.2, get_sort_key p.1))

/-- Insert an element into a sorted list before the first element it is
`le`-below, after equal elements inserted earlier: the insertion step of a
stable ascending sort. -/
def pyInsert (le : α → α → Bool) (x : α) : List α → List α
  | [] => [x]
  | y :: ys => if le x y then x :: y :: ys else y :: pyInsert le x ys

/-- Stable ascending sort. Python `list.sort` is a stable sort, and for a
comparator that is a total preorder (as all comparators here are: they are
derived from total orders on keys) every stable sort produces the same
output, so insertion sort is a faithful model. -/
def pySort (le : α → α → Bool) : List α → List α
  | [] => []
  | x :: xs => pyInsert le x (pySort le xs)

/-- The comparator for the stable ascending sort by sort key
(`flattened_releases.sort(key=lambda x: x[2])`). -/
def keyLe (a b : String × Bool × SortKey) : Bool :=
  !keyLt b.2.2 a.2.2

/-- Step 2 of `analyze_releases`: the flattened triples in chronological
(sort-key) order, by a stable sort like Python `list.sort`. -/
def sortedReleases (data : Dataset) : List (String × Bool × SortKey) :=
  pySort keyLe (flattenReleases data)

/-- Append to the entry list of a series in the insertion-ordered series
map, creating the entry at the end if absent: the behaviour of
`defaultdict(list)` under `map[key].append(value)`. -/
def addToSeriesMap : List (String × List (String × Bool)) → String → String × Bool →
    List (String × List (String × Bool))
  | [], k, v => [(k, [v])]
  | (k₀, l) :: rest, k, v =>
    if k₀ = k then (k₀, l ++ [v]) :: rest
    else (k₀, l) :: addToSeriesMap rest k v

/-- The grouping loop of `analyze_releases` (step 3): walk the sorted
triples, skip those whose numeric parts are empty, group the rest by major
version into `CMSSW_<major>_X Series` buckets, and collect the names of
not-ready releases with major version between 10 and 13 inclusive. -/
def groupAux (acc : List (String × List (String × Bool)) × List String) :
    List (String × Bool × SortKey) → List (String × List (String × Bool)) × List String
  | [] => acc
  | (name, ready, key) :: rest =>
    match key.1 with
    | [] => groupAux acc rest
    | major :: _ =>
      let m := addToSeriesMap acc.1 ("CMSSW_" ++ toString major ++ "_X Series") (name, ready)
      let u := if !ready && decide (10 ≤ major) && decide (major ≤ 13)
               then acc.2 ++ [name] else acc.2
      groupAux (m, u) rest

/-- Series map and unsupported list produced by the grouping loop. -/
def groupReleases (l : List (String × Bool × SortKey)) :
    List (String × List (String × Bool)) × List String :=
  groupAux ([], []) l

/-- The scanning loop of step 4 of `analyze_releases`: one pass over the
enumerated series entries maintaining `last_false_index` (as an integer,
initially -1), `all_true` and `all_false`. -/
def seriesScanAux : Nat → Int → Bool → Bool → List (String × Bool) → Int × Bool × Bool
  | _, lfi, allT, allF, [] => (lfi, allT, allF)
  | i, lfi, allT, _, (_, true) :: rest => seriesScanAux (i + 1) lfi allT false rest
  | i, _, _, allF, (_, false) :: rest => seriesScanAux (i + 1) (Int.ofNat i) false allF rest

/-- Placeholder entry used with `List.getD` where Python would index a
list; every use is guarded by an index bound, so the value is irrelevant. -/
def dfltEntry : String × Bool := ("", false)

/-- Report string for a series whose every release is ready. -/
def allReadyMsg (name : String) : String :=
  "Token ready starting from " ++ name ++ " (all releases in series are ready)"

/-- Report string for a series with no ready release. -/
def noneReadyMsg : String := "No releases are token ready."

/-- Report string for a series that ends with a non-ready release. -/
def noStableMsg : String :=
  "No stable \x27Token ready\x27 status (series ends with a non-ready release)."

/-- Report string for a series that becomes ready at a release. -/
def readyFromMsg (name : String) : String :=
  "Token ready starting from " ++ name

/-- Step 4 of `analyze_releases`, for one series: the inflection-point
report derived from the scan of the ordered (release, ready) entries. -/
def analyzeSeries (releases : List (String × Bool)) : String :=
  if releases.isEmpty then "No data found."
  else
    let scan := seriesScanAux 0 (-1) true true releases
    if scan.2.1 then allReadyMsg (releases.getD 0 dfltEntry).1
    else if scan.2.2 then noneReadyMsg
    else if scan.1 = (releases.length : Int) - 1 then noStableMsg
    else readyFromMsg (releases.getD (scan.1 + 1).toNat dfltEntry).1

/-- The whole analysis on an in-memory dataset: the body of
`analyze_releases` after the JSON load. Returns the series-name-to-report
mapping (in series insertion order) and the unsupported list. -/
def analyze_data (data : Dataset) : List (String × String) × List String :=
  let grouped := groupReleases (sortedReleases data)
  (grouped.1.map (fun p => (p.1, analyzeSeries p.2)), grouped.2)

/-- Outcome of opening and JSON-decoding the dataset file: the three cases
the `try` block of `analyze_releases` distinguishes. -/
inductive LoadResult
  | ok (data : Dataset)
  | fileNotFound
  | jsonDecodeError

/-- A message on the diagnostic stream (stderr). -/
inductive Diagnostic
  | inputFileNotFound (path : String)
  | jsonParseFailure (path : String)
deriving DecidableEq

/-- Embedding of `analyze_releases` including its error handling: on
`FileNotFoundError` or `json.JSONDecodeError` it prints one diagnostic and
returns `({}, [])`; otherwise it analyzes the loaded data. The returned
diagnostics model what the function writes to stderr. -/
def analyze_releases (json_file : String) (load : LoadResult) :
    (List (String × String) × List String) × List Diagnostic :=
  match load with
  | .fileNotFound => (([], []), [.inputFileNotFound json_file])
  | .jsonDecodeError => (([], []), [.jsonParseFailure json_file])
  | .ok data => (analyze_data data, [])

/-- Reflexive string comparator used for `json.dump(..., sort_keys=True)`. -/
def strLe (a b : String) : Bool := !strLt b a

/-- Writing the dataset snapshot with `json.dump(..., sort_keys=True)`:
the JSON document lists the keys of every mapping in sorted order; values
are serialized unchanged. -/
def writeSnapshot (d : Dataset) : Dataset :=
  pySort (fun x y => strLe x.1 y.1)
    (d.map (fun p => (p.1, pySort (fun x y => strLe x.1 y.1) p.2)))

/-- Reading the snapshot back with `json.load`: the association list the
document denotes, in document order. -/
def readSnapshot (d : Dataset) : Dataset := d

/-- Write the dataset as the JSON snapshot, then read it back. -/
def roundTrip (d : Dataset) : Dataset := readSnapshot (writeSnapshot d)

/-- Lookup of one architecture record through the nested dataset mapping. -/
def datasetLookup (d : Dataset) (rel arch : String) : Option VersionRecord :=
  match d.lookup rel with
  | none => none
  | some e => e.lookup arch

/-- Index of the chronologically last not-ready entry of a series, if any:
the reference value that `last_false_index` of the scanning loop computes. -/
def lastFalseIdx? : List (String × Bool) → Option Nat
  | [] => none
  | p :: rest =>
    match lastFalseIdx? rest with
    | some j => some (j + 1)
    | none => if p.2 then none else some 0

/-- Claim-side notion for the comparator claim: the integer components of a
pure-numeric dotted version string. -/
def numComponents (s : String) : List Nat :=
  (pySplit (Char.ofNat 46) s).map digitsVal

/-- Claim-side notion for the comparator claim: pad a component tuple with
trailing zeros to the given length. -/
def padTo (n : Nat) (l : List Nat) : List Nat :=
  l ++ List.replicate (n - l.length) 0

/-- A pure-numeric dotted version string: every dot-separated component is
a nonempty string of decimal digits. -/
abbrev PureNumeric (s : String) : Prop :=
  ∀ p ∈ pySplit (Char.ofNat 46) s, p ≠ [] ∧ ∀ c ∈ p, c.isDigit = true

theorem pyInsert_perm (le : α → α → Bool) (x : α) (l : List α) :
    (pyInsert le x l).Perm (x :: l) := by
  induction l with
  | nil => simp [pyInsert]
  | cons y ys ih =>
    by_cases h : le x y = true
    · simp [pyInsert, h]
    · simp only [pyInsert, if_neg h]
      exact (ih.cons y).trans (List.Perm.swap x y ys)

theorem pySort_perm (le : α → α → Bool) (l : List α) : (pySort le l).Perm l := by
  induction l with
  | nil => simp [pySort]
  | cons x xs ih => exact (pyInsert_perm le x (pySort le xs)).trans (ih.cons x)

theorem lookup_mem {β : Type} {l : List (String × β)} {k : String} {v : β}
    (h : l.lookup k = some v) : (k, v) ∈ l := by
  induction l with
  | nil => simp [List.lookup] at h
  | cons p rest ih =>
    obtain ⟨k₀, v₀⟩ := p
    by_cases hk : k == k₀
    · rw [List.lookup, hk] at h
      obtain rfl : v₀ = v := by simpa using h
      obtain rfl : k = k₀ := by simpa using hk
      exact List.mem_cons_self _ _
    · rw [List.lookup, Bool.eq_false_iff.mpr hk] at h
      exact List.mem_cons_of_mem _ (ih h)

theorem lookup_of_mem_nodup {β : Type} {l : List (String × β)} {k : String} {v : β}
    (hnd : (l.map Prod.fst).Nodup) (h : (k, v) ∈ l) : l.lookup k = some v := by
  induction l with
  | nil => simp at h
  | cons p rest ih =>
    obtain ⟨k₀, v₀⟩ := p
    rcases List.mem_cons.mp h with heq | hmem
    · obtain ⟨rfl, rfl⟩ := Prod.mk.injEq .. ▸ heq
      simp [List.lookup]
    · have hk : ¬(k = k₀) := by
        rintro rfl
        exact (List.nodup_cons.mp hnd).1 (List.mem_map.mpr ⟨(k, v), hmem, rfl⟩)
      rw [List.lookup, beq_eq_false_iff_ne.mpr hk]
      exact ih (List.nodup_cons.mp hnd).2 hmem

theorem lookup_eq_none_iff {β : Type} (l : List (String × β)) (k : String) :
    l.lookup k = none ↔ k ∉ l.map Prod.fst := by
  induction l with
  | nil => simp [List.lookup]
  | cons p rest ih =>
    obtain ⟨k₀, v₀⟩ := p
    by_cases hk : k = k₀
    · subst hk
      rw [List.lookup]
      simp
    · rw [List.lookup, beq_eq_false_iff_ne.mpr hk]
      simp [ih, hk]

theorem lookup_perm {β : Type} {l₁ l₂ : List (String × β)} (hp : l₁.Perm l₂)
    (hnd : (l₁.map Prod.fst).Nodup) (k : String) : l₁.lookup k = l₂.lookup k := by
  cases h : l₁.lookup k with
  | some v =>
    exact (lookup_of_mem_nodup ((hp.map Prod.fst).nodup_iff.mp hnd)
      (hp.mem_iff.mp (lookup_mem h))).symm
  | none =>
    refine ((lookup_eq_none_iff l₂ k).mpr ?_).symm
    exact fun hmem => (lookup_eq_none_iff l₁ k).mp h ((hp.map Prod.fst).mem_iff.mpr hmem)

theorem mem_flattenReleases {data : Dataset} {t : String × Bool × SortKey} :
    t ∈ flattenReleases data ↔
      ∃ e ∈ data, e.2 ≠ [] ∧ t = (e.1, is_release_ready e.2, get_sort_key e.1) := by
  simp only [flattenReleases, List.mem_filterMap]
  constructor
  · rintro ⟨e, he, hf⟩
    by_cases hne : e.2.isEmpty
    · rw [if_pos hne] at hf
      exact absurd hf (by simp)
    · rw [if_neg hne] at hf
      exact ⟨e, he, by simpa using hne, (Option.some_injective _ hf).symm⟩
  · rintro ⟨e, he, hne, rfl⟩
    exact ⟨e, he, by rw [if_neg (by simpa using hne)]⟩

theorem get_sort_key_len (s : String) : 4 ≤ (get_sort_key s).1.length := by
  simp only [get_sort_key, List.length_append, List.length_replicate]
  omega

theorem sortedReleases_key {data : Dataset} {t : String × Bool × SortKey}
    (h : t ∈ sortedReleases data) : t.2.2 = get_sort_key t.1 := by
  have hm := (pySort_perm keyLe (flattenReleases data)).mem_iff.mp h
  obtain ⟨e, _, _, rfl⟩ := mem_flattenReleases.mp hm
  rfl

theorem sortedReleases_key_ne_nil {data : Dataset} {t : String × Bool × SortKey}
    (h : t ∈ sortedReleases data) : t.2.2.1 ≠ [] := by
  rw [sortedReleases_key h]
  have h4 := get_sort_key_len t.1
  intro hnil
  rw [hnil] at h4
  simp at h4

theorem addToSeriesMap_mem_rev {m : List (String × List (String × Bool))} {k : String}
    {v : String × Bool} {s : String} {sl : List (String × Bool)} {p : String × Bool}
    (h : (s, sl) ∈ addToSeriesMap m k v) (hp : p ∈ sl) :
    (∃ sl₀, (s, sl₀) ∈ m ∧ p ∈ sl₀) ∨ p = v := by
  induction m with
  | nil =>
    simp only [addToSeriesMap, List.mem_singleton, Prod.mk.injEq] at h
    obtain ⟨rfl, rfl⟩ := h
    right
    simpa using hp
  | cons q rest ih =>
    obtain ⟨k₀, l⟩ := q
    by_cases hk : k₀ = k
    · subst hk
      simp only [addToSeriesMap, if_pos rfl] at h
      rcases List.mem_cons.mp h with heq | hmem
      · obtain ⟨rfl, rfl⟩ : s = k₀ ∧ sl = l ++ [v] := by simpa using heq
        rcases List.mem_append.mp hp with h1 | h2
        · exact Or.inl ⟨l, List.mem_cons_self _ _, h1⟩
        · exact Or.inr (by simpa using h2)
      · exact Or.inl ⟨sl, List.mem_cons_of_mem _ hmem, hp⟩
    · simp only [addToSeriesMap, if_neg hk] at h
      rcases List.mem_cons.mp h with heq | hmem
      · exact Or.inl ⟨sl, List.mem_cons.mpr (Or.inl heq), hp⟩
      · rcases ih hmem with ⟨sl₀, hm, hp₀⟩ | hv
        · exact Or.inl ⟨sl₀, List.mem_cons_of_mem _ hm, hp₀⟩
        · exact Or.inr hv

theorem addToSeriesMap_mem_new (m : List (String × List (String × Bool))) (k : String)
    (v : String × Bool) : ∃ sl, (k, sl) ∈ addToSeriesMap m k v ∧ v ∈ sl := by
  induction m with
  | nil => exact ⟨[v], by simp [addToSeriesMap], by simp⟩
  | cons q rest ih =>
    obtain ⟨k₀, l⟩ := q
    by_cases hk : k₀ = k
    · subst hk
      exact ⟨l ++ [v], by simp [addToSeriesMap], by simp⟩
    · obtain ⟨sl, hm, hv⟩ := ih
      refine ⟨sl, ?_, hv⟩
      simp only [addToSeriesMap, if_neg hk]
      exact List.mem_cons_of_mem _ hm

theorem addToSeriesMap_mem_old {m : List (String × List (String × Bool))} {s : String}
    {sl : List (String × Bool)} {p : String × Bool} (h : (s, sl) ∈ m) (hp : p ∈ sl)
    (k : String) (v : String × Bool) :
    ∃ sl₂, (s, sl₂) ∈ addToSeriesMap m k v ∧ p ∈ sl₂ := by
  induction m with
  | nil => simp at h
  | cons q rest ih =>
    obtain ⟨k₀, l⟩ := q
    rcases List.mem_cons.mp h with heq | hmem
    · obtain ⟨rfl, rfl⟩ : s = k₀ ∧ sl = l := by simpa using heq
      by_cases hk : s = k
      · subst hk
        refine ⟨sl ++ [v], ?_, List.mem_append_left _ hp⟩
        simp [addToSeriesMap]
      · refine ⟨sl, ?_, hp⟩
        simp only [addToSeriesMap, if_neg hk]
        exact List.mem_cons_self _ _
    · by_cases hk : k₀ = k
      · subst hk
        refine ⟨sl, ?_, hp⟩
        simp only [addToSeriesMap, if_pos rfl]
        exact List.mem_cons_of_mem _ hmem
      · obtain ⟨sl₂, hm₂, hp₂⟩ := ih hmem
        refine ⟨sl₂, ?_, hp₂⟩
        simp only [addToSeriesMap, if_neg hk]
        exact List.mem_cons_of_mem _ hm₂

theorem groupAux_mem_preserve {l : List (String × Bool × SortKey)}
    {acc : List (String × List (String × Bool)) × List String} {s : String}
    {p : String × Bool} (h : ∃ sl, (s, sl) ∈ acc.1 ∧ p ∈ sl) :
    ∃ sl, (s, sl) ∈ (groupAux acc l).1 ∧ p ∈ sl := by
  induction l generalizing acc with
  | nil => simpa [groupAux] using h
  | cons u rest ih =>
    obtain ⟨name, ready, nums, pre⟩ := u
    cases nums with
    | nil => exact ih h
    | cons major ks =>
      simp only [groupAux]
      apply ih
      obtain ⟨sl, hm, hp⟩ := h
      exact addToSeriesMap_mem_old hm hp _ _

theorem groupAux_assigns {l : List (String × Bool × SortKey)} {t : String × Bool × SortKey}
    (ht : t ∈ l) (hne : t.2.2.1 ≠ [])
    (acc : List (String × List (String × Bool)) × List String) :
    ∃ s sl, (s, sl) ∈ (groupAux acc l).1 ∧ (t.1, t.2.1) ∈ sl := by
  induction l generalizing acc with
  | nil => simp at ht
  | cons u rest ih =>
    obtain ⟨name, ready, nums, pre⟩ := u
    rcases List.mem_cons.mp ht with heq | hmem
    · subst heq
      cases nums with
      | nil => exact absurd rfl hne
      | cons major ks =>
        simp only [groupAux]
        refine ⟨"CMSSW_" ++ toString major ++ "_X Series", ?_⟩
        refine groupAux_mem_preserve ?_
        exact addToSeriesMap_mem_new acc.1 _ _
    · cases nums with
      | nil => exact ih hmem acc
      | cons major ks =>
        simp only [groupAux]
        exact ih hmem _

theorem groupAux_unsup_mem {l : List (String × Bool × SortKey)}
    {acc : List (String × List (String × Bool)) × List String} {n : String}
    (h : n ∈ (groupAux acc l).2) : n ∈ acc.2 ∨ ∃ t ∈ l, t.1 = n := by
  induction l generalizing acc with
  | nil => exact Or.inl (by simpa [groupAux] using h)
  | cons u rest ih =>
    obtain ⟨name, ready, nums, pre⟩ := u
    cases nums with
    | nil =>
      rcases ih h with h1 | ⟨t, ht, hn⟩
      · exact Or.inl h1
      · exact Or.inr ⟨t, List.mem_cons_of_mem _ ht, hn⟩
    | cons major ks =>
      simp only [groupAux] at h
      rcases ih h with h1 | ⟨t, ht, hn⟩
      · cases hc : (!ready && decide (10 ≤ major) && decide (major ≤ 13)) with
        | true =>
          rw [hc, if_pos rfl] at h1
          rcases List.mem_append.mp h1 with h2 | h3
          · exact Or.inl h2
          · exact Or.inr ⟨(name, ready, major :: ks, pre), List.mem_cons_self _ _,
              (List.mem_singleton.mp h3).symm⟩
        | false =>
          rw [hc] at h1
          exact Or.inl (by simpa using h1)
      · exact Or.inr ⟨t, List.mem_cons_of_mem _ ht, hn⟩

theorem groupAux_unsup_eq {l : List (String × Bool × SortKey)}
    (h : ∀ t ∈ l, t.2.2.1 ≠ [])
    (acc : List (String × List (String × Bool)) × List String) :
    (groupAux acc l).2 = acc.2 ++
      (l.filter (fun t => !t.2.1 && decide (10 ≤ t.2.2.1.headD 0) &&
        decide (t.2.2.1.headD 0 ≤ 13))).map (fun t => t.1) := by
  induction l generalizing acc with
  | nil => simp [groupAux]
  | cons u rest ih =>
    obtain ⟨name, ready, nums, pre⟩ := u
    cases nums with
    | nil => exact absurd rfl (h _ (List.mem_cons_self _ _))
    | cons major ks =>
      simp only [groupAux]
      rw [ih (fun t ht => h t (List.mem_cons_of_mem _ ht))]
      cases hc : (!ready && decide (10 ≤ major) && decide (major ≤ 13)) with
      | true =>
        rw [List.filter_cons_of_pos (by simpa using hc), if_pos rfl]
        simp
      | false =>
        rw [List.filter_cons_of_neg (by simpa using hc)]
        simp

theorem seriesScanAux_allT (l : List (String × Bool)) :
    ∀ (i : Nat) (lfi : Int) (aT aF : Bool),
      (seriesScanAux i lfi aT aF l).2.1 = (aT && l.all (fun p => p.2)) := by
  induction l with
  | nil => intro i lfi aT aF; simp [seriesScanAux]
  | cons p rest ih =>
    intro i lfi aT aF
    obtain ⟨name, ready⟩ := p
    cases ready with
    | true => rw [seriesScanAux, ih]; simp
    | false => rw [seriesScanAux, ih]; simp

theorem seriesScanAux_allF (l : List (String × Bool)) :
    ∀ (i : Nat) (lfi : Int) (aT aF : Bool),
      (seriesScanAux i lfi aT aF l).2.2 = (aF && l.all (fun p => !p.2)) := by
  induction l with
  | nil => intro i lfi aT aF; simp [seriesScanAux]
  | cons p rest ih =>
    intro i lfi aT aF
    obtain ⟨name, ready⟩ := p
    cases ready with
    | true => rw [seriesScanAux, ih]; simp
    | false => rw [seriesScanAux, ih]; simp

theorem seriesScanAux_lfi (l : List (String × Bool)) :
    ∀ (i : Nat) (lfi : Int) (aT aF : Bool),
      (seriesScanAux i lfi aT aF l).1 =
        (match lastFalseIdx? l with
          | none => lfi
          | some j => ((i + j : Nat) : Int)) := by
  induction l with
  | nil => intro i lfi aT aF; simp [seriesScanAux, lastFalseIdx?]
  | cons p rest ih =>
    intro i lfi aT aF
    obtain ⟨name, ready⟩ := p
    cases ready with
    | true =>
      rw [seriesScanAux, ih]
      simp only [lastFalseIdx?]
      cases hrest : lastFalseIdx? rest with
      | none => rfl
      | some j =>
        show ((i + 1 + j : Nat) : Int) = ((i + (j + 1) : Nat) : Int)
        congr 1
        omega
    | false =>
      rw [seriesScanAux, ih]
      simp only [lastFalseIdx?]
      cases hrest : lastFalseIdx? rest with
      | none =>
        show ((i : Nat) : Int) = ((i + 0 : Nat) : Int)
        congr 1
      | some j =>
        show ((i + 1 + j : Nat) : Int) = ((i + (j + 1) : Nat) : Int)
        congr 1
        omega

theorem lastFalseIdx?_eq_none_iff (l : List (String × Bool)) :
    lastFalseIdx? l = none ↔ l.all (fun p => p.2) = true := by
  induction l with
  | nil => simp [lastFalseIdx?]
  | cons p rest ih =>
    simp only [lastFalseIdx?]
    cases hrest : lastFalseIdx? rest with
    | some j =>
      have : rest.all (fun p => p.2) ≠ true := fun hc => by
        rw [ih.mpr hc] at hrest; exact Option.noConfusion hrest
      simp [this]
    | none =>
      have hall := ih.mp hrest
      cases hp : p.2 <;> simp [hall, hp]

theorem lastFalseIdx?_spec {l : List (String × Bool)} {j : Nat}
    (h : lastFalseIdx? l = some j) :
    j < l.length ∧ (l.getD j dfltEntry).2 = false ∧
      ∀ k, j < k → k < l.length → (l.getD k dfltEntry).2 = true := by
  induction l generalizing j with
  | nil => simp [lastFalseIdx?] at h
  | cons p rest ih =>
    simp only [lastFalseIdx?] at h
    cases hrest : lastFalseIdx? rest with
    | some j₀ =>
      rw [hrest] at h
      obtain rfl : j₀ + 1 = j := Option.some_injective _ h
      obtain ⟨hlen, hval, hafter⟩ := ih hrest
      refine ⟨by simp; omega, by rwa [List.getD_cons_succ], ?_⟩
      intro k hk1 hk2
      cases k with
      | zero => omega
      | succ k₀ =>
        rw [List.getD_cons_succ]
        exact hafter k₀ (by omega) (by simp at hk2; omega)
    | none =>
      rw [hrest] at h
      cases hp : p.2 with
      | true => rw [hp] at h; exact Option.noConfusion h
      | false =>
        rw [hp] at h
        obtain rfl : 0 = j := Option.some_injective _ (by simpa using h)
        refine ⟨by simp, by simpa [List.getD_cons_zero] using hp, ?_⟩
        intro k hk1 hk2
        cases k with
        | zero => omega
        | succ k₀ =>
          rw [List.getD_cons_succ]
          have hall := (lastFalseIdx?_eq_none_iff rest).mp hrest
          have hk₀ : k₀ < rest.length := by simp at hk2; omega
          rw [List.getD_eq_getElem rest dfltEntry hk₀]
          exact List.all_eq_true.mp hall _ (List.getElem_mem hk₀)

theorem lastFalseIdx?_of {l : List (String × Bool)} {j : Nat} (hlen : j < l.length)
    (hj : (l.getD j dfltEntry).2 = false)
    (hafter : ∀ k, j < k → k < l.length → (l.getD k dfltEntry).2 = true) :
    lastFalseIdx? l = some j := by
  induction l generalizing j with
  | nil => simp at hlen
  | cons p rest ih =>
    cases j with
    | zero =>
      have hrest : lastFalseIdx? rest = none := by
        rw [lastFalseIdx?_eq_none_iff, List.all_eq_true]
        intro x hx
        obtain ⟨k₀, hk₀, rfl⟩ := List.mem_iff_getElem.mp hx
        have := hafter (k₀ + 1) (by omega) (by simp; omega)
        rwa [List.getD_cons_succ, List.getD_eq_getElem rest dfltEntry hk₀] at this
      rw [List.getD_cons_zero] at hj
      simp [lastFalseIdx?, hrest, hj]
    | succ j₀ =>
      have hrest : lastFalseIdx? rest = some j₀ := by
        refine ih (by simp at hlen; omega) (by rwa [List.getD_cons_succ] at hj) ?_
        intro k hk1 hk2
        have := hafter (k + 1) (by omega) (by simp; omega)
        rwa [List.getD_cons_succ] at this
      simp [lastFalseIdx?, hrest]

/-- C1: for every series, given its globally-ordered (release, ready)
sequence, the analyzer reports: if every entry is ready, readiness starting
at the first release; if every entry is not ready, that no release is
ready; if the last entry is not ready (but some entry is ready), that the
series has no stable ready status; otherwise, readiness starting at the
release immediately following the chronologically-last not-ready entry. -/
theorem C1_inflection_report (l : List (String × Bool)) (hne : l ≠ []) :
    (l.all (fun p => p.2) = true →
      analyzeSeries l = allReadyMsg (l.getD 0 dfltEntry).1) ∧
    (l.all (fun p => !p.2) = true → analyzeSeries l = noneReadyMsg) ∧
    ((∃ p ∈ l, p.2 = true) → (l.getD (l.length - 1) dfltEntry).2 = false →
      analyzeSeries l = noStableMsg) ∧
    (∀ j, j + 1 < l.length → (l.getD j dfltEntry).2 = false →
      (∀ k, j < k → k < l.length → (l.getD k dfltEntry).2 = true) →
      analyzeSeries l = readyFromMsg ((l.getD (j + 1) dfltEntry).1)) := by
  have hne' : ¬(l.isEmpty = true) := by simpa using hne
  have hl0 : 0 < l.length := List.length_pos.mpr hne
  refine ⟨?_, ?_, ?_, ?_⟩
  · intro hall
    have h1 : (seriesScanAux 0 (-1) true true l).2.1 = true := by
      rw [seriesScanAux_allT, hall]
      rfl
    rw [analyzeSeries, if_neg hne']
    simp [h1]
  · intro hallF
    obtain ⟨p0, hp0⟩ := List.exists_mem_of_ne_nil l hne
    have hp0f : p0.2 = false := by
      have := List.all_eq_true.mp hallF p0 hp0
      simpa using this
    have h1 : (seriesScanAux 0 (-1) true true l).2.1 = false := by
      rw [seriesScanAux_allT]
      simp only [Bool.true_and]
      exact List.all_eq_false.mpr ⟨p0, hp0, by rw [hp0f]; decide⟩
    have h2 : (seriesScanAux 0 (-1) true true l).2.2 = true := by
      rw [seriesScanAux_allF, hallF]
      rfl
    rw [analyzeSeries, if_neg hne']
    simp [h1, h2]
  · intro hex hlast
    obtain ⟨p1, hp1, hp1t⟩ := hex
    have hLFI : lastFalseIdx? l = some (l.length - 1) := by
      refine lastFalseIdx?_of (by omega) hlast ?_
      intro k hk1 hk2
      omega
    have h1 : (seriesScanAux 0 (-1) true true l).2.1 = false := by
      rw [seriesScanAux_allT]
      simp only [Bool.true_and]
      refine List.all_eq_false.mpr ⟨l.getD (l.length - 1) dfltEntry, ?_, by rw [hlast]; decide⟩
      rw [List.getD_eq_getElem l dfltEntry (by omega)]
      exact List.getElem_mem _
    have h2 : (seriesScanAux 0 (-1) true true l).2.2 = false := by
      rw [seriesScanAux_allF]
      simp only [Bool.true_and]
      exact List.all_eq_false.mpr ⟨p1, hp1, by rw [hp1t]; decide⟩
    have h3 : (seriesScanAux 0 (-1) true true l).1 = (l.length : Int) - 1 := by
      rw [seriesScanAux_lfi, hLFI]
      show ((0 + (l.length - 1) : Nat) : Int) = (l.length : Int) - 1
      omega
    rw [analyzeSeries, if_neg hne']
    simp [h1, h2, h3]
  · intro j hjlen hjval hafter
    have hLFI : lastFalseIdx? l = some j := lastFalseIdx?_of (by omega) hjval hafter
    have hjmem : l.getD j dfltEntry ∈ l := by
      rw [List.getD_eq_getElem l dfltEntry (by omega)]
      exact List.getElem_mem _
    have hj1mem : l.getD (j + 1) dfltEntry ∈ l := by
      rw [List.getD_eq_getElem l dfltEntry (by omega)]
      exact List.getElem_mem _
    have h1 : (seriesScanAux 0 (-1) true true l).2.1 = false := by
      rw [seriesScanAux_allT]
      simp only [Bool.true_and]
      exact List.all_eq_false.mpr ⟨l.getD j dfltEntry, hjmem, by rw [hjval]; decide⟩
    have h2 : (seriesScanAux 0 (-1) true true l).2.2 = false := by
      rw [seriesScanAux_allF]
      simp only [Bool.true_and]
      refine List.all_eq_false.mpr ⟨l.getD (j + 1) dfltEntry, hj1mem, ?_⟩
      rw [hafter (j + 1) (by omega) (by omega)]
      decide
    have h3 : (seriesScanAux 0 (-1) true true l).1 = (j : Int) := by
      rw [seriesScanAux_lfi, hLFI]
      show ((0 + j : Nat) : Int) = (j : Int)
      omega
    have hcond : ¬((j : Int) = (l.length : Int) - 1) := by omega
    have htn : ((j : Int) + 1).toNat = j + 1 := by omega
    rw [analyzeSeries, if_neg hne']
    simp only [h1, h2, h3, Bool.false_eq_true, if_false]
    rw [if_neg hcond, htn]

/-- Witness for C1: the worked example of the claim, the series
[(R1,false), (R2,false), (R3,true), (R4,true)], reports readiness starting
at R3, the release immediately following the last not-ready entry R2. -/
theorem C1_inflection_report_witness :
    analyzeSeries [("R1", false), ("R2", false), ("R3", true), ("R4", true)] =
      readyFromMsg (([("R1", false), ("R2", false), ("R3", true), ("R4", true)].getD
        (1 + 1) dfltEntry).1) := by
  refine (C1_inflection_report
    [("R1", false), ("R2", false), ("R3", true), ("R4", true)] (by decide)).2.2.2
    1 (by decide) (by decide) ?_
  intro k hk1 hk2
  have hk4 : k < 4 := by simpa using hk2
  interval_cases k
  · decide
  · decide

/-- C3 counterexample: the release name CMSSW_10_6_0_zzz1 carries the real
alphabetic pre-release tag zzz, yet the default marker (zz, 0) of the bare
name CMSSW_10_6_0 does not sort after it: the tagged marker is not below
the default, and the bare release sorts strictly before its tagged
sibling. -/
theorem C3_counterexample :
    (get_sort_key "CMSSW_10_6_0").2 = ("zz", 0) ∧
    (get_sort_key "CMSSW_10_6_0_zzz1").2 = ("zzz", 1) ∧
    preLt ("zzz", 1) ("zz", 0) = false ∧
    keyLt (get_sort_key "CMSSW_10_6_0") (get_sort_key "CMSSW_10_6_0_zzz1") = true := by
  decide

/-- C3 amended: the default pre-release marker (zz, 0), assigned by
get_sort_key to names whose segments after the prefix are all numeric,
sorts strictly after the marker of every release name whose tag is
lexicographically below zz (which covers the tags that occur in practice,
such as pre, rc, patch, cand); in particular, for identical numeric parts,
SortKey(CMSSW_10_6_0_pre1) < SortKey(CMSSW_10_6_0). -/
theorem C3_default_marker_order :
    (∀ name : String, strLt (get_sort_key name).2.1 "zz" = true →
      preLt (get_sort_key name).2 ("zz", 0) = true) ∧
    (∀ name : String, ((pySplit (Char.ofNat 95) name).drop 1).all segIsDigit = true →
      (get_sort_key name).2 = ("zz", 0)) ∧
    keyLt (get_sort_key "CMSSW_10_6_0_pre1") (get_sort_key "CMSSW_10_6_0") = true := by
  refine ⟨?_, ?_, by decide⟩
  · intro name h
    simp [preLt, h]
  · intro name h
    have hdw : ((pySplit (Char.ofNat 95) name).drop 1).dropWhile segIsDigit = [] :=
      List.dropWhile_eq_nil_iff.mpr (fun x hx => List.all_eq_true.mp h x hx)
    simp only [get_sort_key]
    rw [hdw]

/-- Witness for C3: the marker of CMSSW_10_6_0_pre1 sorts strictly before
the default marker. -/
theorem C3_default_marker_order_witness :
    preLt (get_sort_key "CMSSW_10_6_0_pre1").2 ("zz", 0) = true :=
  C3_default_marker_order.1 "CMSSW_10_6_0_pre1" (by decide)

/-- C4 counterexample: a release name with five numeric segments gets a
numeric-parts tuple of five elements, not exactly four: the code pads with
trailing zeros but never truncates. -/
theorem C4_counterexample :
    (get_sort_key "CMSSW_1_2_3_4_5").1 = [1, 2, 3, 4, 5] ∧
    (get_sort_key "CMSSW_1_2_3_4_5").1.length ≠ 4 := by
  decide

/-- C4 amended: the numeric-parts component of the SortKey has exactly four
elements (trailing-zero padded) whenever the release name has at most four
leading numeric segments after the prefix (and never fewer than four in any
case). -/
theorem C4_numeric_parts_length (s : String)
    (h : (((pySplit (Char.ofNat 95) s).drop 1).takeWhile segIsDigit).length ≤ 4) :
    (get_sort_key s).1.length = 4 := by
  simp only [get_sort_key, List.length_append, List.length_replicate, List.length_map]
  omega

/-- Witness for C4: a standard three-segment release name gets a
four-element numeric tuple. -/
theorem C4_numeric_parts_length_witness :
    (get_sort_key "CMSSW_10_6_0").1.length = 4 :=
  C4_numeric_parts_length "CMSSW_10_6_0" (by decide)

/-- C7: when the dataset file is missing or its content fails to decode as
JSON, analyze_releases reports the specific failure on the diagnostic
stream and returns an empty report mapping and an empty unsupported list
instead of aborting. -/
theorem C7_load_failure_empty_results (path : String) :
    analyze_releases path .fileNotFound = (([], []), [.inputFileNotFound path]) ∧
    analyze_releases path .jsonDecodeError = (([], []), [.jsonParseFailure path]) :=
  ⟨rfl, rfl⟩

/-- C9: an architecture record whose isTokenReady field is missing (or
explicitly false) is treated as not-ready by the aggregation, so any
release containing such a record aggregates to not-ready. -/
theorem C9_missing_field_not_ready (arch_data : ArchMap) (a : String) (r : VersionRecord)
    (hmem : (a, r) ∈ arch_data)
    (h : r.isTokenReady = none ∨ r.isTokenReady = some false) :
    is_release_ready arch_data = false := by
  rw [is_release_ready]
  refine List.all_eq_false.mpr ⟨(a, r), hmem, ?_⟩
  show ¬((r.isTokenReady).getD false = true)
  rcases h with h | h <;> rw [h] <;> decide

/-- Witness for C9: a one-architecture release whose record lacks the
isTokenReady field aggregates to not-ready. -/
theorem C9_missing_field_not_ready_witness :
    is_release_ready [("A", ⟨"5.9.9", none⟩)] = false :=
  C9_missing_field_not_ready [("A", ⟨"5.9.9", none⟩)] "A" ⟨"5.9.9", none⟩
    (List.mem_cons_self _ _) (Or.inl rfl)

theorem groupAux_mem_rev {l : List (String × Bool × SortKey)}
    {acc : List (String × List (String × Bool)) × List String} {s : String}
    {sl : List (String × Bool)} {p : String × Bool}
    (h : (s, sl) ∈ (groupAux acc l).1) (hp : p ∈ sl) :
    (∃ sl₀, (s, sl₀) ∈ acc.1 ∧ p ∈ sl₀) ∨ ∃ t ∈ l, t.1 = p.1 ∧ t.2.1 = p.2 := by
  induction l generalizing acc with
  | nil => exact Or.inl ⟨sl, by simpa [groupAux] using h, hp⟩
  | cons u rest ih =>
    obtain ⟨name, ready, nums, pre⟩ := u
    cases nums with
    | nil =>
      rcases ih h with h1 | ⟨t, ht, hteq⟩
      · exact Or.inl h1
      · exact Or.inr ⟨t, List.mem_cons_of_mem _ ht, hteq⟩
    | cons major ks =>
      simp only [groupAux] at h
      rcases ih h with ⟨sl₀, hm, hp₀⟩ | ⟨t, ht, hteq⟩
      · rcases addToSeriesMap_mem_rev hm hp₀ with ⟨sl₁, hm₁, hp₁⟩ | hpv
        · exact Or.inl ⟨sl₁, hm₁, hp₁⟩
        · exact Or.inr ⟨(name, ready, major :: ks, pre), List.mem_cons_self _ _,
            by rw [hpv]; exact ⟨rfl, rfl⟩⟩
      · exact Or.inr ⟨t, List.mem_cons_of_mem _ ht, hteq⟩

/-- C5: a release with at least one architecture entry aggregates to ready
exactly when every architecture entry has isTokenReady = true (so a
two-architecture release with one not-ready entry aggregates to
not-ready), and a release whose architecture mapping is empty appears
neither in the unsupported list nor in any series group. -/
theorem C5_aggregation_and_exclusion :
    (∀ arch_data : ArchMap, arch_data ≠ [] →
      (is_release_ready arch_data = true ↔
        ∀ p ∈ arch_data, p.2.isTokenReady = some true)) ∧
    is_release_ready [("A", ⟨"5.7.0", some true⟩), ("B", ⟨"5.0.0", some false⟩)] = false ∧
    (∀ (data : Dataset) (name : String),
      (∀ e ∈ data, e.1 = name → e.2 = ([] : ArchMap)) →
      name ∉ (analyze_data data).2 ∧
      (∀ (s : String) (sl : List (String × Bool)) (p : String × Bool),
        (s, sl) ∈ (groupReleases (sortedReleases data)).1 → p ∈ sl → p.1 ≠ name)) := by
  refine ⟨?_, by decide, ?_⟩
  · intro arch_data _
    rw [is_release_ready, List.all_eq_true]
    constructor
    · intro hall p hp
      have h := hall p hp
      rcases ho : p.2.isTokenReady with _ | b
      · rw [ho] at h
        exact absurd h (by decide)
      · rw [ho] at h
        cases b
        · exact absurd h (by decide)
        · rfl
    · intro hall p hp
      show (p.2.isTokenReady).getD false = true
      rw [hall p hp]
      rfl
  · intro data name hempty
    have hnot : ∀ t : String × Bool × SortKey, t ∈ sortedReleases data → t.1 ≠ name := by
      intro t ht heq
      have hm := (pySort_perm keyLe (flattenReleases data)).mem_iff.mp ht
      obtain ⟨e, he, hne, rfl⟩ := mem_flattenReleases.mp hm
      exact hne (hempty e he heq)
    constructor
    · intro hmem
      have hmem₂ : name ∈ (groupAux ([], []) (sortedReleases data)).2 := hmem
      rcases groupAux_unsup_mem hmem₂ with h1 | ⟨t, ht, hteq⟩
      · simp at h1
      · exact hnot t ht hteq
    · intro s sl p hsl hp heq
      have hsl₂ : (s, sl) ∈ (groupAux ([], []) (sortedReleases data)).1 := hsl
      rcases groupAux_mem_rev hsl₂ hp with ⟨sl₀, hm, _⟩ | ⟨t, ht, ht1, _⟩
      · simp at hm
      · exact hnot t ht (ht1.trans heq)

/-- Witness for C5: a release whose only dataset entry has an empty
architecture mapping never appears in the unsupported list. -/
theorem C5_aggregation_and_exclusion_witness :
    "CMSSW_11_0_0" ∉ (analyze_data [("CMSSW_11_0_0", ([] : ArchMap))]).2 :=
  (C5_aggregation_and_exclusion.2.2 [("CMSSW_11_0_0", ([] : ArchMap))] "CMSSW_11_0_0"
    (by intro e he _; rw [List.mem_singleton.mp he])).1

/-- C6: the unsupported list returned by the analyzer is exactly the
globally-sorted sequence of release names whose aggregated readiness is
false and whose major version lies in the inclusive range 10 through 13;
not-ready releases with major version outside that range are excluded. -/
theorem C6_unsupported_list (data : Dataset) :
    (analyze_data data).2 =
      ((sortedReleases data).filter
        (fun t => !t.2.1 && decide (10 ≤ t.2.2.1.headD 0) &&
          decide (t.2.2.1.headD 0 ≤ 13))).map (fun t => t.1) := by
  have h : ∀ t ∈ sortedReleases data, t.2.2.1 ≠ [] :=
    fun t ht => sortedReleases_key_ne_nil ht
  show (groupAux ([], []) (sortedReleases data)).2 = _
  rw [groupAux_unsup_eq h]
  simp

/-- C10: the numeric-parts tuple produced by get_sort_key is never empty
(padding guarantees at least four elements), so the grouping loop never
takes its skip branch: every release retained after flattening is assigned
to some series group. -/
theorem C10_numeric_parts_nonempty :
    (∀ s : String, 4 ≤ (get_sort_key s).1.length ∧ (get_sort_key s).1 ≠ []) ∧
    (∀ (data : Dataset) (t : String × Bool × SortKey), t ∈ sortedReleases data →
      ∃ s sl, (s, sl) ∈ (groupReleases (sortedReleases data)).1 ∧ (t.1, t.2.1) ∈ sl) := by
  constructor
  · intro s
    refine ⟨get_sort_key_len s, ?_⟩
    intro hnil
    have h4 := get_sort_key_len s
    rw [hnil] at h4
    simp at h4
  · intro data t ht
    exact groupAux_assigns ht (sortedReleases_key_ne_nil ht) ([], [])

/-- Witness for C10: a concrete one-release dataset whose single release is
assigned to a series group. -/
theorem C10_numeric_parts_nonempty_witness :
    ∃ (s : String) (sl : List (String × Bool)),
      (s, sl) ∈ (groupReleases (sortedReleases
        [("CMSSW_10_6_0", [("a", ⟨"5.7.0", some true⟩)])])).1 ∧
      ("CMSSW_10_6_0", true) ∈ sl :=
  C10_numeric_parts_nonempty.2 [("CMSSW_10_6_0", [("a", ⟨"5.7.0", some true⟩)])]
    ("CMSSW_10_6_0", true, get_sort_key "CMSSW_10_6_0") (by decide)

theorem parseParts_clean {l : List (List Char)}
    (h : ∀ p ∈ l, p ≠ [] ∧ ∀ c ∈ p, c.isDigit = true) :
    parseParts cleanPart l = some (l.map digitsVal) := by
  induction l with
  | nil => rfl
  | cons p rest ih =>
    obtain ⟨hne, hdig⟩ := h p (List.mem_cons_self _ _)
    have hfilter : p.filter Char.isDigit = p := List.filter_eq_self.mpr hdig
    have hclean : cleanPart p = some (digitsVal p) := by
      simp only [cleanPart]
      rw [hfilter, if_neg (by simpa using hne)]
    rw [parseParts, hclean, ih (fun q hq => h q (List.mem_cons_of_mem _ hq))]
    rfl

theorem parseParts_int {l : List (List Char)}
    (h : ∀ p ∈ l, p ≠ [] ∧ ∀ c ∈ p, c.isDigit = true) :
    parseParts intPart l = some (l.map digitsVal) := by
  induction l with
  | nil => rfl
  | cons p rest ih =>
    obtain ⟨hne, hdig⟩ := h p (List.mem_cons_self _ _)
    have hseg : segIsDigit p = true := by
      rw [segIsDigit, Bool.and_eq_true]
      exact ⟨by simpa using hne, List.all_eq_true.mpr hdig⟩
    have hint : intPart p = some (digitsVal p) := by
      rw [intPart, if_pos hseg]
    rw [parseParts, hint, ih (fun q hq => h q (List.mem_cons_of_mem _ hq))]
    rfl

theorem cmpParts_self (l : List Nat) : cmpParts l l = false := by
  induction l with
  | nil => rfl
  | cons x xs ih => rw [cmpParts]; simp [ih]

theorem cmpParts_lex {v t : List Nat} (h : v.length = t.length) :
    (cmpParts v t = true ↔ List.Lex (· < ·) t v) := by
  induction v generalizing t with
  | nil =>
    cases t with
    | nil =>
      constructor
      · intro hc
        exact absurd hc (by decide)
      · intro hl
        exact absurd hl (by intro hl'; nomatch hl')
    | cons t0 ts => simp at h
  | cons v0 vs ih =>
    cases t with
    | nil => simp at h
    | cons t0 ts =>
      rw [cmpParts]
      by_cases h1 : t0 < v0
      · rw [if_pos h1]
        exact ⟨fun _ => List.Lex.rel h1, fun _ => rfl⟩
      · rw [if_neg h1]
        by_cases h2 : v0 < t0
        · rw [if_pos h2]
          constructor
          · intro hc
            exact absurd hc (by decide)
          · intro hl
            cases hl with
            | rel hr => exact absurd hr h1
            | cons hl' => exact absurd h2 (lt_irrefl _)
        · have heq : v0 = t0 := le_antisymm (not_lt.mp h1) (not_lt.mp h2)
          subst heq
          rw [if_neg h2, ih (by simpa using h)]
          constructor
          · intro hl
            exact List.Lex.cons hl
          · intro hl
            cases hl with
            | rel hr => exact absurd hr (lt_irrefl _)
            | cons hl' => exact hl'

/-- C2: for pure-numeric-dotted strings A and B, is_version_greater A B
holds exactly when the trailing-zero-padded component tuple of A is
lexicographically strictly greater than that of B, is_version_greater A A
is false (strict, not greater-or-equal), and on the cleaned-candidate
examples: compare("5.28.00d","5.6.0") is true, compare("5.6.0","5.6.0") is
false, compare("4.9.0","5.6.0") is false. -/
theorem C2_comparator (A B : String) (hA : PureNumeric A) (hB : PureNumeric B) :
    (is_version_greater A B = some true ↔
      List.Lex (· < ·)
        (padTo (max (numComponents A).length (numComponents B).length) (numComponents B))
        (padTo (max (numComponents A).length (numComponents B).length) (numComponents A))) ∧
    is_version_greater A A = some false ∧
    is_version_greater "5.28.00d" "5.6.0" = some true ∧
    is_version_greater "5.6.0" "5.6.0" = some false ∧
    is_version_greater "4.9.0" "5.6.0" = some false := by
  have hpcA := parseParts_clean (l := pySplit (Char.ofNat 46) A) hA
  have hpiB := parseParts_int (l := pySplit (Char.ofNat 46) B) hB
  have hpiA := parseParts_int (l := pySplit (Char.ofNat 46) A) hA
  refine ⟨?_, ?_, by decide, by decide, by decide⟩
  · rw [is_version_greater, hpcA, hpiB]
    have hlen :
        (padTo (max (numComponents A).length (numComponents B).length)
          (numComponents A)).length =
        (padTo (max (numComponents A).length (numComponents B).length)
          (numComponents B)).length := by
      simp only [padTo, List.length_append, List.length_replicate]
      omega
    show some (cmpParts
        (padTo (max (numComponents A).length (numComponents B).length) (numComponents A))
        (padTo (max (numComponents A).length (numComponents B).length) (numComponents B))) =
        some true ↔ _
    constructor
    · intro hsome
      exact (cmpParts_lex hlen).mp (Option.some_injective _ hsome)
    · intro hlex
      exact congrArg some ((cmpParts_lex hlen).mpr hlex)
  · rw [is_version_greater, hpcA, hpiA]
    show some (cmpParts
        (padTo (max (numComponents A).length (numComponents A).length) (numComponents A))
        (padTo (max (numComponents A).length (numComponents A).length) (numComponents A))) =
        some false
    rw [cmpParts_self]

/-- Witness for C2: the comparator is strict on equal pure-numeric
versions. -/
theorem C2_comparator_witness :
    is_version_greater "4.9.0" "4.9.0" = some false :=
  (C2_comparator "4.9.0" "5.6.0" (by decide) (by decide)).2.1

theorem lookup_map_snd {β γ : Type} (l : List (String × β)) (g : β → γ) (k : String) :
    (l.map (fun p => (p.1, g p.2))).lookup k = (l.lookup k).map g := by
  induction l with
  | nil => rfl
  | cons p rest ih =>
    obtain ⟨k₀, v₀⟩ := p
    cases hbeq : (k == k₀) with
    | true => simp [List.lookup, hbeq]
    | false => simpa [List.lookup, hbeq] using ih

/-- C8: writing a ReleaseDataset as the key-sorted JSON snapshot and
reading it back yields an identical mapping: the same release keys are
present, and every (release, architecture) lookup returns the same record
(same xrootd_version and isTokenReady), regardless of the key order of the
dataset at write time. -/
theorem C8_snapshot_round_trip (d : Dataset)
    (houter : (d.map Prod.fst).Nodup)
    (hinner : ∀ e ∈ d, (e.2.map Prod.fst).Nodup) :
    (∀ rel : String, ((roundTrip d).lookup rel).isSome = (d.lookup rel).isSome) ∧
    (∀ rel arch : String,
      datasetLookup (roundTrip d) rel arch = datasetLookup d rel arch) := by
  have hmap : ∀ rel : String, (roundTrip d).lookup rel =
      (d.lookup rel).map (fun e => pySort (fun x y => strLe x.1 y.1) e) := by
    intro rel
    have hperm : (writeSnapshot d).Perm
        (d.map (fun p => (p.1, pySort (fun x y => strLe x.1 y.1) p.2))) :=
      pySort_perm _ _
    have hnd : ((d.map (fun p =>
        (p.1, pySort (fun x y => strLe x.1 y.1) p.2))).map Prod.fst).Nodup := by
      simpa [List.map_map, Function.comp_def] using houter
    have h1 : (writeSnapshot d).lookup rel =
        (d.map (fun p => (p.1, pySort (fun x y => strLe x.1 y.1) p.2))).lookup rel :=
      lookup_perm hperm ((hperm.map Prod.fst).nodup_iff.mpr hnd) rel
    have h2 := lookup_map_snd d (fun e => pySort (fun x y => strLe x.1 y.1) e) rel
    exact h1.trans h2
  constructor
  · intro rel
    rw [show (roundTrip d).lookup rel = _ from hmap rel]
    cases d.lookup rel <;> rfl
  · intro rel arch
    simp only [datasetLookup]
    rw [hmap rel]
    cases hrel : d.lookup rel with
    | none => rfl
    | some e =>
      have hnd := hinner (rel, e) (lookup_mem hrel)
      show (pySort (fun x y => strLe x.1 y.1) e).lookup arch = e.lookup arch
      exact lookup_perm (pySort_perm _ e)
        (((pySort_perm (fun x y => strLe x.1 y.1) e).map Prod.fst).nodup_iff.mpr hnd) arch

/-- Witness for C8: a concrete two-release dataset written unsorted reads
back with identical lookups. -/
theorem C8_snapshot_round_trip_witness :
    datasetLookup (roundTrip [("b", [("y", ⟨"1", some true⟩), ("x", ⟨"2", some false⟩)]),
        ("a", ([] : ArchMap))]) "b" "x" =
      datasetLookup [("b", [("y", ⟨"1", some true⟩), ("x", ⟨"2", some false⟩)]),
        ("a", ([] : ArchMap))] "b" "x" :=
  (C8_snapshot_round_trip
    [("b", [("y", ⟨"1", some true⟩), ("x", ⟨"2", some false⟩)]), ("a", ([] : ArchMap))]
    (by decide) (by decide)).2 "b" "x"
